import Mathlib

/-!
A shallow embedding of the document-analysis core of the AI Legal Document
Analyzer (`legal_core.py`), together with proofs about its behaviour.

Python strings are modelled as `List Char`, Python floats as `ℚ`, and the
fallible PDF / OCR backends as explicit environments whose operations return
`Except`.  The classifier, clause detector, risk scorer and comparator are
translated function by function from `legal_core.py`.
-/

namespace LegalCore

/-- Python `str.lower`, character by character (ASCII case folding). -/
def pyLower (s : List Char) : List Char := s.map Char.toLower

/-- Characters treated as whitespace by Python `str.strip()` / `str.split()`. -/
def isPySpace (c : Char) : Bool :=
  c == ' ' || c == '\t' || c == '\n' || c == '\r' || c == Char.ofNat 11 || c == Char.ofNat 12

/-- Python `str.strip()`: drop whitespace from both ends. -/
def pyStrip (l : List Char) : List Char :=
  ((l.dropWhile isPySpace).reverse.dropWhile isPySpace).reverse

/-- Python `str.split()` with no argument: split on whitespace runs, dropping
empty words. -/
def pySplit (l : List Char) : List (List Char) :=
  (l.splitOnP isPySpace).filter (fun w => !w.isEmpty)

/-- Does the second list start with the first one?  Helper for `substrOf`. -/
def leadMatch : List Char → List Char → Bool
  | [], _ => true
  | _ :: _, [] => false
  | c :: cs, d :: ds => (c == d) && leadMatch cs ds

/-- Python's substring containment `sub in t` on character lists. -/
def substrOf (sub : List Char) : List Char → Bool
  | [] => sub.isEmpty
  | c :: rest => leadMatch sub (c :: rest) || substrOf sub rest

/-- The ASCII apostrophe (used by the keyword `hon'ble` in the source). -/
def apos : Char := Char.ofNat 39

/-- The Unicode right single quotation mark (second `hon'ble` variant). -/
def rightQuote : Char := Char.ofNat 8217

/-- The judicial-signal keywords of `detect_contract_type` (`judgment_signals`
in `legal_core.py`). -/
def judgment_signals : List (List Char) :=
  [['h', 'o', 'n', apos, 'b', 'l', 'e'],
   ['h', 'o', 'n', rightQuote, 'b', 'l', 'e'],
   "judgment".toList, "judgement".toList, "order".toList, "judgment of".toList,
   "court".toList, "petitioner".toList, "respondent".toList, "appellant".toList,
   "civil appeal".toList, "scc".toList, "supreme court".toList, "high court".toList,
   "bench".toList]

/-- The contract-type scoring table of `detect_contract_type` (`categories`
in `legal_core.py`), in declaration order. -/
def categories : List (String × List (List Char)) :=
  [("Employment Contract",
    ["employee".toList, "employer".toList, "salary".toList, "joining".toList,
     "resignation".toList, "notice period".toList, "termination".toList, "probation".toList]),
   ("Lease Agreement",
    ["lease".toList, "tenant".toList, "landlord".toList, "rent".toList, "premises".toList,
     "let".toList, "term of years".toList, "security deposit".toList]),
   ("Non-Disclosure Agreement",
    ["non-disclosure".toList, "confidential".toList, "confidentiality".toList, "nda".toList,
     "proprietary information".toList]),
   ("Loan Agreement",
    ["loan".toList, "borrower".toList, "lender".toList, "interest".toList, "repayment".toList,
     "installment".toList, "security".toList]),
   ("Sales Agreement",
    ["seller".toList, "buyer".toList, "goods".toList, "purchase".toList, "delivery".toList,
     "invoice".toList, "sales agreement".toList]),
   ("Partnership Agreement",
    ["partnership".toList, "partner".toList, "capital contribution".toList,
     "profit share".toList, "partners".toList]),
   ("Service Agreement",
    ["services".toList, "service provider".toList, "scope of work".toList,
     "deliverables".toList, "service agreement".toList, "statement of work".toList]),
   ("Franchise Agreement",
    ["franchise".toList, "franchisor".toList, "franchisee".toList, "royalty".toList])]

/-- Keyword score of one category: each matching keyword adds weight 3 when it
is a multi-word phrase (`len(kw.split()) > 1`) and weight 1 otherwise. -/
def scoreOf (t : List Char) (keywords : List (List Char)) : Nat :=
  keywords.foldl
    (fun acc kw =>
      if substrOf kw t then acc + (if 1 < (pySplit kw).length then 3 else 1) else acc)
    0

/-- Python `max(scores, key=...)` over an insertion-ordered score list: the
first entry of maximal score (later entries win only when strictly greater). -/
def pyMax (l : List (String × Nat)) : String × Nat :=
  match l with
  | [] => ("", 0)
  | x :: xs => xs.foldl (fun best p => if best.2 < p.2 then p else best) x

/-- `detect_contract_type` from `legal_core.py`: judicial-signal override,
then keyword scoring with confidence heuristics. -/
def detect_contract_type (text : List Char) : String :=
  if judgment_signals.any (fun k => substrOf k (pyLower text)) then
    "Court Judgment / Order"
  else if 3 ≤ (pyMax (categories.map fun p => (p.1, scoreOf (pyLower text) p.2))).2 then
    (pyMax (categories.map fun p => (p.1, scoreOf (pyLower text) p.2))).1
  else if 0 < (pyMax (categories.map fun p => (p.1, scoreOf (pyLower text) p.2))).2 ∧
      300 < (pyLower text).length then
    (pyMax (categories.map fun p => (p.1, scoreOf (pyLower text) p.2))).1
  else if (pyLower text).length < 200 then "Short Text / Unknown"
  else "General Legal Document"

/-- One entry of a clause map: the Python dict
`found: bool, excerpt: str` produced per category. -/
structure ClauseResult where
  found : Bool
  excerpt : List Char
deriving DecidableEq, Repr

/-- Number of clause-map entries with `found` set
(`sum(1 for v in clause_map.values() if v.get("found"))`). -/
def foundCount (clause_map : List (String × ClauseResult)) : Nat :=
  (clause_map.filter fun v => v.2.found).length

/-- The coverage ratio of `assess_risk`:
`ratio = (present / total) if total else 0`. -/
def riskRatio (clause_map : List (String × ClauseResult)) : ℚ :=
  if clause_map.length = 0 then 0
  else (foundCount clause_map : ℚ) / (clause_map.length : ℚ)

/-- `assess_risk` from `legal_core.py`: thresholds 0.8 and 0.5 on the ratio of
found clauses. -/
def assess_risk (clause_map : List (String × ClauseResult)) : String × String :=
  if clause_map = [] then ("Unknown", "No clause information available.")
  else if 4/5 ≤ riskRatio clause_map then
    ("Low", "Most key clauses are present; minor legal review recommended.")
  else if 1/2 ≤ riskRatio clause_map ∧ riskRatio clause_map < 4/5 then
    ("Medium", "Some important clauses are missing or incomplete — review recommended.")
  else
    ("High", "Multiple critical clauses missing — significant legal risk detected.")

/-- Python regex word characters (`\w`) as used by the ASCII legal texts. -/
def isWordChar (c : Char) : Bool := c.isAlphanum || c == '_'

/-- Is position `p` of `text` a `\b` word boundary?  It is one exactly when
the word-character status changes there (positions outside the text count as
non-word). -/
def isBoundary (text : List Char) (p : Nat) : Bool :=
  (decide (0 < p) && isWordChar (text.getD (p - 1) ' ')) !=
    (decide (p < text.length) && isWordChar (text.getD p ' '))

/-- Length of the longest prefix containing no `'.'` — the characters the
class `[^.]` can consume. -/
def nonDotRunLen : List Char → Nat
  | [] => 0
  | c :: cs => if c = '.' then 0 else nonDotRunLen cs + 1

/-- Case-insensitive occurrence of keyword `kw` at position `p` of `text`
(`re.IGNORECASE`). -/
def ciMatchesAt (text kw : List Char) (p : Nat) : Bool :=
  decide (((text.drop p).take kw.length).length = kw.length) &&
    (((text.drop p).take kw.length).zip kw).all fun pr => pr.1.toLower == pr.2.toLower

/-- Total length of a match of `([^.]{0,300}\b kw \b[^.]{0,300})` anchored at
start position `s`, if one exists there: the leading `[^.]{0,300}` is greedy
and backtracks from the longest feasible length downwards, the trailing one is
greedy with nothing after it. -/
def matchLenAt (text kw : List Char) (s : Nat) : Option Nat :=
  let maxl := min 300 (nonDotRunLen (text.drop s))
  ((List.range (maxl + 1)).map (fun d => maxl - d)).findSome? fun l =>
    if isBoundary text (s + l) && ciMatchesAt text kw (s + l) &&
        isBoundary text (s + l + kw.length) then
      some (l + kw.length + min 300 (nonDotRunLen (text.drop (s + l + kw.length))))
    else none

/-- Python `pattern.search` for the clause pattern: the leftmost start
position admitting a match, with the match length found there. -/
def reSearch (text kw : List Char) : Option (Nat × Nat) :=
  (List.range (text.length + 1)).findSome? fun s =>
    (matchLenAt text kw s).map fun len => (s, len)

/-- The clause table of `detect_clauses_with_excerpts` (`clauses` in
`legal_core.py`), in declaration order. -/
def clauses : List (String × List (List Char)) :=
  [("Confidentiality",
    ["confidential".toList, "non-disclosure".toList, "privacy".toList, "proprietary".toList]),
   ("Termination",
    ["terminate".toList, "termination".toList, "expiry".toList, "expire".toList,
     "cancel".toList]),
   ("Payment",
    ["payment".toList, "fee".toList, "compensation".toList, "remuneration".toList,
     "invoice".toList]),
   ("Liability",
    ["liability".toList, "liable".toList, "damages".toList, "responsible".toList]),
   ("Dispute Resolution",
    ["dispute".toList, "arbitration".toList, "mediation".toList, "jurisdiction".toList]),
   ("Governing Law",
    ["governing law".toList, "laws of".toList, "jurisdiction".toList]),
   ("Intellectual Property",
    ["intellectual property".toList, "copyright".toList, "patent".toList,
     "trademark".toList, "ownership".toList]),
   ("Non-Compete",
    ["non-compete".toList, "restrict".toList, "competition".toList,
     "restrictive covenant".toList]),
   ("Indemnity",
    ["indemnify".toList, "indemnity".toList, "hold harmless".toList]),
   ("Force Majeure",
    ["force majeure".toList, "unforeseeable".toList, "beyond control".toList,
     "act of god".toList])]

/-- Python `str.replace` of newline by space, character by character. -/
def replNl (c : Char) : Char := if c = '\n' then ' ' else c

/-- Detection of a single clause category: first keyword (in declared order)
whose pattern matches wins; its stripped, newline-collapsed match text becomes
the excerpt. -/
def detectClause (text : List Char) (keys : List (List Char)) : ClauseResult :=
  match keys.findSome? (fun k => reSearch text k) with
  | some sl =>
      { found := true,
        excerpt := pyStrip ((pyStrip ((text.drop sl.1).take sl.2)).map replNl) }
  | none => { found := false, excerpt := [] }

/-- `detect_clauses_with_excerpts` from `legal_core.py`. -/
def detect_clauses_with_excerpts (text : List Char) : List (String × ClauseResult) :=
  clauses.map fun p => (p.1, detectClause text p.2)

/-- Abstract failures raised by the PDF / OCR backend libraries. -/
inductive PdfErr where
  | corrupt
  | backend
deriving DecidableEq, Repr

/-- Environment of `extract_text_from_pdf`: whether `PyPDF2` imported, and the
behaviour of `PdfReader` on each path.  Each page is represented by the outcome
of its `extract_text()` call: an exception, `None`, or a text. -/
structure PdfEnv where
  pdfReaderAvailable : Bool
  readPdf : String → Except PdfErr (List (Except PdfErr (Option (List Char))))

/-- `extract_text_from_pdf` from `legal_core.py`: a missing backend or a
reader exception degrades to the empty string; page texts are filtered for
truthiness, joined by newlines and stripped. -/
def extract_text_from_pdf (env : PdfEnv) (path : String) : List Char :=
  if env.pdfReaderAvailable = false then []
  else
    match env.readPdf path with
    | .error _ => []
    | .ok pages =>
        let texts := pages.foldl
          (fun acc p =>
            match p with
            | .error _ => acc
            | .ok none => acc
            | .ok (some t) => if t.isEmpty then acc else acc ++ [t])
          ([] : List (List Char))
        pyStrip (List.intercalate ['\n'] texts)

/-- Environment of `run_ocr_on_pdf`: whether `pdf2image` and `pytesseract`
imported, and the behaviour of `convert_from_path`.  Each page image is
represented by the outcome of its `image_to_string` call. -/
structure OcrEnv where
  convertAvailable : Bool
  tesseractAvailable : Bool
  convert : String → Except PdfErr (List (Except PdfErr (List Char)))

/-- `run_ocr_on_pdf` from `legal_core.py`: missing backends or a conversion
exception degrade to the empty string; per-image OCR exceptions yield empty
pieces which are dropped. -/
def run_ocr_on_pdf (env : OcrEnv) (path : String) : List Char :=
  if env.convertAvailable = false ∨ env.tesseractAvailable = false then []
  else
    match env.convert path with
    | .error _ => []
    | .ok images =>
        let pieces := images.foldl
          (fun acc img =>
            match img with
            | .error _ => acc
            | .ok piece => if piece.isEmpty then acc else acc ++ [piece])
          ([] : List (List Char))
        pyStrip (List.intercalate ['\n'] pieces)

/-- The autojunk popularity test of `difflib.SequenceMatcher` (`__chain_b`):
with `autojunk=True`, an element of `b` is popular when `b` has at least 200
elements and the element occurs more than `ntest = len(b) // 100 + 1` times. -/
def isPopular (b : List Char) (c : Char) : Bool :=
  decide (200 ≤ b.length) && decide (b.length / 100 + 1 < b.count c)

/-- The `b2j` index of `SequenceMatcher`: all positions of `c` in `b`, in
increasing order, with popular elements removed entirely. -/
def b2jOf (b : List Char) (c : Char) : List Nat :=
  if isPopular b c then []
  else (List.range b.length).filter (fun j => b.getD j ' ' == c)

/-- The junk test used by the extension loops of `find_longest_match`: the
matcher is constructed with `isjunk=None`, so the junk set `bjunk` is empty. -/
def isbjunk (_ : Char) : Bool := false

/-- The running best match `(besti, bestj, bestsize)` of
`find_longest_match`. -/
structure FlmBest where
  besti : Nat
  bestj : Nat
  bestsize : Nat
deriving DecidableEq, Repr

/-- The inner `for j in b2j.get(a[i])` loop of `find_longest_match`: build
the fresh `newj2len` row from the previous row `old` and update the best
match (strict improvements only, so the first maximal cell wins). -/
def rowStep (old : Nat → Nat) (i : Nat) :
    List Nat → (Nat → Nat) → FlmBest → (Nat → Nat) × FlmBest
  | [], new, best => (new, best)
  | j :: js, new, best =>
    let k := (if j = 0 then 0 else old (j - 1)) + 1
    let new' := Function.update new j k
    let best' := if best.bestsize < k then ⟨i + 1 - k, j + 1 - k, k⟩ else best
    rowStep old i js new' best'

/-- The cells of row `i` visited by `find_longest_match`: the positions of
`a[i]` in `b`, restricted to `[blo, bhi)` (the `continue` / `break` guards on
the ascending position list). -/
def cellsRow (a b : List Char) (blo bhi i : Nat) : List Nat :=
  (b2jOf b (a.getD i ' ')).filter (fun j => decide (blo ≤ j) && decide (j < bhi))

/-- The dynamic-programming pass of `find_longest_match` over the rows
`[i, i+cnt)`, threading the `j2len` row and the best match. -/
def dictPassFrom (a b : List Char) (blo bhi : Nat) (i cnt : Nat)
    (st : (Nat → Nat) × FlmBest) : (Nat → Nat) × FlmBest :=
  (List.range' i cnt).foldl
    (fun st' i' => rowStep st'.1 i' (cellsRow a b blo bhi i') (fun _ => 0) st'.2) st

/-- A bounded while loop: iterate `next` while `cond` holds, at most `fuel`
times.  The fuels supplied in `findLongestMatch` dominate the possible
iteration counts of the corresponding Python loops. -/
def extLoop (cond : FlmBest → Bool) (next : FlmBest → FlmBest) :
    Nat → FlmBest → FlmBest
  | 0, st => st
  | fuel + 1, st => if cond st then extLoop cond next fuel (next st) else st

/-- Guard of the first extension loop: extend left over non-junk equal
elements. -/
def cond1 (a b : List Char) (alo blo : Nat) (st : FlmBest) : Bool :=
  decide (alo < st.besti) && decide (blo < st.bestj) &&
    !(isbjunk (b.getD (st.bestj - 1) ' ')) &&
    (a.getD (st.besti - 1) ' ' == b.getD (st.bestj - 1) ' ')

/-- Step of the leftward extension loops. -/
def stepL (st : FlmBest) : FlmBest := ⟨st.besti - 1, st.bestj - 1, st.bestsize + 1⟩

/-- Guard of the second extension loop: extend right over non-junk equal
elements. -/
def cond2 (a b : List Char) (ahi bhi : Nat) (st : FlmBest) : Bool :=
  decide (st.besti + st.bestsize < ahi) && decide (st.bestj + st.bestsize < bhi) &&
    !(isbjunk (b.getD (st.bestj + st.bestsize) ' ')) &&
    (a.getD (st.besti + st.bestsize) ' ' == b.getD (st.bestj + st.bestsize) ' ')

/-- Step of the rightward extension loops. -/
def stepR (st : FlmBest) : FlmBest := ⟨st.besti, st.bestj, st.bestsize + 1⟩

/-- Guard of the third extension loop: extend left over junk equal elements
(never fires because the junk set is empty). -/
def cond3 (a b : List Char) (alo blo : Nat) (st : FlmBest) : Bool :=
  decide (alo < st.besti) && decide (blo < st.bestj) &&
    (isbjunk (b.getD (st.bestj - 1) ' ')) &&
    (a.getD (st.besti - 1) ' ' == b.getD (st.bestj - 1) ' ')

/-- Guard of the fourth extension loop: extend right over junk equal elements
(never fires because the junk set is empty). -/
def cond4 (a b : List Char) (ahi bhi : Nat) (st : FlmBest) : Bool :=
  decide (st.besti + st.bestsize < ahi) && decide (st.bestj + st.bestsize < bhi) &&
    (isbjunk (b.getD (st.bestj + st.bestsize) ' ')) &&
    (a.getD (st.besti + st.bestsize) ' ' == b.getD (st.bestj + st.bestsize) ' ')

/-- `find_longest_match` of `difflib.SequenceMatcher` with `isjunk=None` and
`autojunk=True`: the dynamic-programming pass over `b2j` followed by the four
extension loops. -/
def findLongestMatch (a b : List Char) (alo ahi blo bhi : Nat) : FlmBest :=
  let best0 := (dictPassFrom a b blo bhi alo (ahi - alo) ((fun _ => 0), ⟨alo, blo, 0⟩)).2
  let best1 := extLoop (cond1 a b alo blo) stepL best0.besti best0
  let best2 := extLoop (cond2 a b ahi bhi) stepR ahi best1
  let best3 := extLoop (cond3 a b alo blo) stepL best2.besti best2
  extLoop (cond4 a b ahi bhi) stepR ahi best3

/-- Total size of the matching blocks produced by `get_matching_blocks`,
written as the recursion that its work queue performs (the traversal order
does not affect the sum).  The fuel dominates the recursion depth because
each sub-range is strictly smaller. -/
def matchSum (a b : List Char) : Nat → Nat × Nat × Nat × Nat → Nat
  | 0, _ => 0
  | fuel + 1, (alo, ahi, blo, bhi) =>
    let m := findLongestMatch a b alo ahi blo bhi
    if m.bestsize = 0 then 0
    else
      matchSum a b fuel (alo, m.besti, blo, m.bestj) + m.bestsize +
        matchSum a b fuel (m.besti + m.bestsize, ahi, m.bestj + m.bestsize, bhi)

/-- `SequenceMatcher.ratio()`: twice the number of matched elements divided
by the total length of the two sequences (`1.0` when both are empty). -/
def sequenceMatcherRatio (a b : List Char) : ℚ :=
  if a.length + b.length = 0 then 1
  else
    (2 * (matchSum a b (a.length + b.length + 1) (0, a.length, 0, b.length)) : ℚ) /
      ((a.length : ℚ) + (b.length : ℚ))

/-- Round half to even on the integers, as Python's builtin `round`. -/
def halfEvenInt (q : ℚ) : ℤ :=
  if q - ⌊q⌋ < 1/2 then ⌊q⌋
  else if 1/2 < q - ⌊q⌋ then ⌊q⌋ + 1
  else if ⌊q⌋ % 2 = 0 then ⌊q⌋ else ⌊q⌋ + 1

/-- Python `round(x, 2)`. -/
def pyRound2 (q : ℚ) : ℚ := (halfEvenInt (q * 100) : ℚ) / 100

/-- `compare_versions` from `legal_core.py`: guard empty inputs, then the
`SequenceMatcher` ratio scaled to a percentage and rounded to two decimals. -/
def compare_versions (text1 text2 : List Char) : ℚ :=
  if text1 = [] ∨ text2 = [] then 0
  else pyRound2 (sequenceMatcherRatio text1 text2 * 100)

/-- A position of `a` that can seed a self-match in `find_longest_match`:
it lies inside the window `[lo, hi)` and holds a non-popular character, so
`b2j` lists it. -/
def Vp (a : List Char) (lo hi j : Nat) : Prop :=
  lo ≤ j ∧ j < hi ∧ isPopular a (a.getD j ' ') = false

instance (a : List Char) (lo hi j : Nat) : Decidable (Vp a lo hi j) := by
  unfold Vp
  infer_instance

/-- Length of the maximal run of seed positions ending at `j`. -/
def Dv (a : List Char) (lo hi : Nat) : Nat → Nat
  | 0 => if Vp a lo hi 0 then 1 else 0
  | j + 1 => if Vp a lo hi (j + 1) then Dv a lo hi j + 1 else 0

/-- `Dv` at the predecessor position (`0` at position `0`). -/
def Dpre (a : List Char) (lo hi : Nat) : Nat → Nat
  | 0 => 0
  | j + 1 => Dv a lo hi j

end LegalCore

/-- A text with 300 non-period characters on each side of `confidential`. -/
def longWindowText : List Char :=
  List.replicate 300 'a' ++ " confidential ".toList ++ List.replicate 300 'b'

/-- The short side of the symmetry counterexample. -/
def ceShort : List Char := "ab".toList

/-- The long side of the symmetry counterexample: 100 `a`s then 100 `b`s, so
both characters are autojunk-popular when this string is the second
argument. -/
def ceLong : List Char := List.replicate 100 'a' ++ List.replicate 100 'b'

/-- A backend environment whose reader raises on every path (corrupt file). -/
def corruptPdfEnv : LegalCore.PdfEnv :=
  ⟨true, fun _ => .error LegalCore.PdfErr.corrupt⟩

/-- A backend environment with the OCR dependencies missing. -/
def missingOcrEnv : LegalCore.OcrEnv :=
  ⟨false, false, fun _ => .error LegalCore.PdfErr.backend⟩

/-- A nine-category clause map with four clauses found: its ratio is 4/9,
between 0.4 and 0.5. -/
def riskMapNineFour : List (String × LegalCore.ClauseResult) :=
  [("c1", ⟨true, []⟩), ("c2", ⟨true, []⟩), ("c3", ⟨true, []⟩), ("c4", ⟨true, []⟩),
   ("c5", ⟨false, []⟩), ("c6", ⟨false, []⟩), ("c7", ⟨false, []⟩),
   ("c8", ⟨false, []⟩), ("c9", ⟨false, []⟩)]

/-- A two-category clause map with one clause found: ratio 1/2. -/
def riskMapTwoOne : List (String × LegalCore.ClauseResult) :=
  [("a", ⟨true, []⟩), ("b", ⟨false, []⟩)]

namespace LegalCore

/-- Any matching judicial signal forces the `Court Judgment / Order` label. -/
theorem detect_eq_court_of_any (text : List Char)
    (hany : judgment_signals.any (fun k => substrOf k (pyLower text)) = true) :
    detect_contract_type text = "Court Judgment / Order" := by
  unfold detect_contract_type
  rw [hany]
  rfl

/-- The lower-cased text has the same length as the text. -/
theorem pyLower_length (text : List Char) : (pyLower text).length = text.length :=
  List.length_map _ _

theorem Dv_eq (a : List Char) (lo hi j : Nat) :
    Dv a lo hi j = if Vp a lo hi j then Dpre a lo hi j + 1 else 0 := by
  cases j <;> rfl

theorem Dv_eq_zero (a : List Char) (lo hi j : Nat) (h : ¬ Vp a lo hi j) :
    Dv a lo hi j = 0 := by
  rw [Dv_eq, if_neg h]

/-- A run of seed positions fits between `lo` and its end position. -/
theorem Dv_add_lo_le (a : List Char) (lo hi : Nat) :
    ∀ j, Vp a lo hi j → Dv a lo hi j + lo ≤ j + 1
  | 0, h => by
    rw [Dv_eq, if_pos h]
    have hD : Dpre a lo hi 0 = 0 := rfl
    have := h.1
    omega
  | j + 1, h => by
    rw [Dv_eq, if_pos h]
    have hD : Dpre a lo hi (j + 1) = Dv a lo hi j := rfl
    by_cases hj : Vp a lo hi j
    · have := Dv_add_lo_le a lo hi j hj
      omega
    · have hz : Dv a lo hi j = 0 := Dv_eq_zero a lo hi j hj
      have := h.1
      omega

/-- Characterisation of the visited cells of a self-comparison row. -/
theorem mem_cellsRow_self (a : List Char) (lo hi i : Nat) (j : Nat) :
    j ∈ cellsRow a a lo hi i ↔
      isPopular a (a.getD i ' ') = false ∧ j < a.length ∧
        a.getD j ' ' = a.getD i ' ' ∧ lo ≤ j ∧ j < hi := by
  unfold cellsRow b2jOf
  by_cases hpop : isPopular a (a.getD i ' ') = true
  · rw [if_pos hpop]
    constructor
    · intro h
      simp at h
    · rintro ⟨hfalse, -⟩
      rw [hpop] at hfalse
      exact absurd hfalse (by decide)
  · rw [if_neg hpop]
    simp only [Bool.not_eq_true] at hpop
    simp only [List.mem_filter, List.mem_range, Bool.and_eq_true, decide_eq_true_eq,
      beq_iff_eq, hpop]
    tauto

/-- The visited cells of a row are listed in increasing order. -/
theorem cellsRow_pairwise (a b : List Char) (blo bhi i : Nat) :
    (cellsRow a b blo bhi i).Pairwise (· < ·) := by
  unfold cellsRow b2jOf
  apply List.Pairwise.sublist (List.filter_sublist _)
  split
  · exact List.Pairwise.nil
  · exact List.Pairwise.sublist (List.filter_sublist _) (List.pairwise_lt_range _)

/-- Invariant propagation through one row of the self-comparison pass: the
fresh `j2len` row stays bounded by the run lengths `Dv`, and every strict
improvement of the best match happens at a diagonal cell, so the best match
stays diagonal and in range, and dominates the completed runs. -/
theorem rowStep_go (a : List Char) (lo hi : Nat)
    (i : Nat) (hilo : lo ≤ i) (hihi : i < hi) (old : Nat → Nat)
    (holdA : ∀ j, old j ≤ Dv a lo hi j)
    (holdB : ∀ j, old j ≤ Dpre a lo hi i)
    (holdC : ∀ j, j + 1 = i → old j = Dv a lo hi j) :
    ∀ (cs : List Nat) (new : Nat → Nat) (best : FlmBest),
      (∀ j ∈ cs, j ∈ cellsRow a a lo hi i) →
      cs.Pairwise (· < ·) →
      (∀ j, new j ≤ Dv a lo hi j) →
      (∀ j, new j ≤ Dv a lo hi i) →
      (new i = Dv a lo hi i ∨ i ∈ cs) →
      best.besti = best.bestj →
      lo ≤ best.besti →
      best.besti + best.bestsize ≤ hi →
      (∀ j, j < i → Dv a lo hi j ≤ best.bestsize) →
      (i ∈ cs ∨ Dv a lo hi i ≤ best.bestsize) →
      (∀ j, (rowStep old i cs new best).1 j ≤ Dv a lo hi j) ∧
      (∀ j, (rowStep old i cs new best).1 j ≤ Dv a lo hi i) ∧
      (rowStep old i cs new best).1 i = Dv a lo hi i ∧
      (rowStep old i cs new best).2.besti = (rowStep old i cs new best).2.bestj ∧
      lo ≤ (rowStep old i cs new best).2.besti ∧
      (rowStep old i cs new best).2.besti + (rowStep old i cs new best).2.bestsize ≤ hi ∧
      (∀ j, j < i + 1 → Dv a lo hi j ≤ (rowStep old i cs new best).2.bestsize) := by
  intro cs
  induction cs with
  | nil =>
    intro new best _ _ hnewA hnewB hnewC hdiag hblo hbhi hbound hbI
    refine ⟨hnewA, hnewB, ?_, hdiag, hblo, hbhi, ?_⟩
    · rcases hnewC with h | h
      · exact h
      · simp at h
    · intro j hj
      rcases Nat.lt_succ_iff_lt_or_eq.mp hj with hlt | rfl
      · exact hbound j hlt
      · rcases hbI with h | h
        · simp at h
        · exact h
  | cons j cs' ih =>
    intro new best hcells hsorted hnewA hnewB hnewC hdiag hblo hbhi hbound hbI
    have hcell := hcells j (List.mem_cons_self j cs')
    rw [mem_cellsRow_self] at hcell
    obtain ⟨hipop, hjlen, hval, hjlo, hjhi⟩ := hcell
    have hVi : Vp a lo hi i := ⟨hilo, hihi, hipop⟩
    have hVj : Vp a lo hi j := ⟨hjlo, hjhi, by rw [hval]; exact hipop⟩
    have hDi : Dv a lo hi i = Dpre a lo hi i + 1 := by rw [Dv_eq, if_pos hVi]
    have hDj : Dv a lo hi j = Dpre a lo hi j + 1 := by rw [Dv_eq, if_pos hVj]
    simp only [rowStep]
    set k := (if j = 0 then 0 else old (j - 1)) + 1 with hk
    have hkDj : k ≤ Dv a lo hi j := by
      rcases j with _ | j'
      · rw [hk, if_pos rfl, hDj]
        omega
      · rw [hk, if_neg (Nat.succ_ne_zero j')]
        have h1 : old (j' + 1 - 1) ≤ Dv a lo hi j' := by
          have : j' + 1 - 1 = j' := rfl
          rw [this]
          exact holdA j'
        have h2 : Dpre a lo hi (j' + 1) = Dv a lo hi j' := rfl
        omega
    have hkDi : k ≤ Dv a lo hi i := by
      rcases j with _ | j'
      · rw [hk, if_pos rfl, hDi]
        omega
      · rw [hk, if_neg (Nat.succ_ne_zero j'), hDi]
        have h1 : old (j' + 1 - 1) ≤ Dpre a lo hi i := by
          have : j' + 1 - 1 = j' := rfl
          rw [this]
          exact holdB j'
        omega
    have hkDiagEq : j = i → k = Dv a lo hi i := by
      intro hji
      subst hji
      rcases j with _ | j'
      · rw [hk, if_pos rfl, hDj]
        have hD : Dpre a lo hi 0 = 0 := rfl
        omega
      · rw [hk, if_neg (Nat.succ_ne_zero j'), hDj]
        have h1 : old (j' + 1 - 1) = Dv a lo hi j' := by
          have : j' + 1 - 1 = j' := rfl
          rw [this]
          exact holdC j' rfl
        have h2 : Dpre a lo hi (j' + 1) = Dv a lo hi j' := rfl
        omega
    have hcells' : ∀ j' ∈ cs', j' ∈ cellsRow a a lo hi i :=
      fun j' h => hcells j' (List.mem_cons_of_mem _ h)
    have hsorted' : cs'.Pairwise (· < ·) := (List.pairwise_cons.mp hsorted).2
    have hnewA' : ∀ j', Function.update new j k j' ≤ Dv a lo hi j' := by
      intro j'
      by_cases hjj : j' = j
      · subst hjj
        rw [Function.update_same]
        exact hkDj
      · rw [Function.update_noteq hjj]
        exact hnewA j'
    have hnewB' : ∀ j', Function.update new j k j' ≤ Dv a lo hi i := by
      intro j'
      by_cases hjj : j' = j
      · subst hjj
        rw [Function.update_same]
        exact hkDi
      · rw [Function.update_noteq hjj]
        exact hnewB j'
    have hnewC' : Function.update new j k i = Dv a lo hi i ∨ i ∈ cs' := by
      by_cases hji : j = i
      · left
        subst hji
        rw [Function.update_same]
        exact hkDiagEq rfl
      · rcases hnewC with h | h
        · left
          rw [Function.update_noteq (fun hij => hji hij.symm)]
          exact h
        · rcases List.mem_cons.mp h with h' | h'
          · exact absurd h'.symm hji
          · exact Or.inr h'
    by_cases hcase : best.bestsize < k
    · have hji : j = i := by
        by_contra hne
        rcases Nat.lt_or_ge j i with hlt' | hge
        · have h1 := hbound j hlt'
          omega
        · have hij : i < j := lt_of_le_of_ne hge (Ne.symm hne)
          have hinotin : i ∉ j :: cs' := by
            intro hmem
            rcases List.mem_cons.mp hmem with h' | h'
            · omega
            · have := (List.pairwise_cons.mp hsorted).1 i h'
              omega
          rcases hbI with h' | h'
          · exact hinotin h'
          · omega
      have hkD := hkDiagEq hji
      rw [if_pos hcase]
      have hklei : k + lo ≤ i + 1 := by
        have := Dv_add_lo_le a lo hi i hVi
        omega
      refine ih (Function.update new j k) ⟨i + 1 - k, j + 1 - k, k⟩
        hcells' hsorted' hnewA' hnewB' hnewC' ?_ ?_ ?_ ?_ ?_
      · simp only
        rw [hji]
      · simp only
        omega
      · simp only
        omega
      · intro j' hj'
        have := hbound j' hj'
        simp only
        omega
      · right
        simp only
        omega
    · rw [if_neg hcase]
      have hbI' : i ∈ cs' ∨ Dv a lo hi i ≤ best.bestsize := by
        by_cases hji : j = i
        · right
          have := hkDiagEq hji
          omega
        · rcases hbI with h' | h'
          · rcases List.mem_cons.mp h' with h'' | h''
            · exact absurd h''.symm hji
            · exact Or.inl h''
          · exact Or.inr h'
      exact ih (Function.update new j k) best hcells' hsorted' hnewA' hnewB' hnewC'
        hdiag hblo hbhi hbound hbI'

/-- Invariant propagation over the rows of the self-comparison pass: the best
match of the dynamic-programming pass is diagonal and in range. -/
theorem dictPassFrom_self_inv (a : List Char) (lo hi : Nat) (hhi : hi ≤ a.length) :
    ∀ (cnt i : Nat), lo ≤ i → i + cnt ≤ hi →
      ∀ (dict : Nat → Nat) (best : FlmBest),
        (∀ j, dict j ≤ Dv a lo hi j) →
        (∀ j, dict j ≤ Dpre a lo hi i) →
        (∀ j, j + 1 = i → dict j = Dv a lo hi j) →
        best.besti = best.bestj →
        lo ≤ best.besti →
        best.besti + best.bestsize ≤ hi →
        (∀ j, j < i → Dv a lo hi j ≤ best.bestsize) →
        (dictPassFrom a a lo hi i cnt (dict, best)).2.besti =
            (dictPassFrom a a lo hi i cnt (dict, best)).2.bestj ∧
          lo ≤ (dictPassFrom a a lo hi i cnt (dict, best)).2.besti ∧
          (dictPassFrom a a lo hi i cnt (dict, best)).2.besti +
            (dictPassFrom a a lo hi i cnt (dict, best)).2.bestsize ≤ hi := by
  intro cnt
  induction cnt with
  | zero =>
    intro i _ _ dict best _ _ _ hdiag hblo hbhi _
    exact ⟨hdiag, hblo, hbhi⟩
  | succ cnt ih =>
    intro i hilo hcnt dict best hA hB hC hdiag hblo hbhi hbound
    have hihi : i < hi := by omega
    have hstep : dictPassFrom a a lo hi i (cnt + 1) (dict, best) =
        dictPassFrom a a lo hi (i + 1) cnt
          (rowStep dict i (cellsRow a a lo hi i) (fun _ => 0) best) := rfl
    have hnewC : (fun _ => (0 : Nat)) i = Dv a lo hi i ∨ i ∈ cellsRow a a lo hi i := by
      by_cases hVi : Vp a lo hi i
      · right
        exact (mem_cellsRow_self a lo hi i i).mpr
          ⟨hVi.2.2, by omega, rfl, hVi.1, hVi.2.1⟩
      · left
        exact (Dv_eq_zero a lo hi i hVi).symm
    have hbI : i ∈ cellsRow a a lo hi i ∨ Dv a lo hi i ≤ best.bestsize := by
      by_cases hVi : Vp a lo hi i
      · left
        exact (mem_cellsRow_self a lo hi i i).mpr
          ⟨hVi.2.2, by omega, rfl, hVi.1, hVi.2.1⟩
      · right
        rw [Dv_eq_zero a lo hi i hVi]
        exact Nat.zero_le _
    obtain ⟨hA', hB', hC', hdiag', hblo', hbhi', hbound'⟩ :=
      rowStep_go a lo hi i hilo hihi dict hA hB hC
        (cellsRow a a lo hi i) (fun _ => 0) best
        (fun _ h => h) (cellsRow_pairwise a a lo hi i)
        (fun _ => Nat.zero_le _) (fun _ => Nat.zero_le _)
        hnewC hdiag hblo hbhi hbound hbI
    rw [hstep]
    refine ih (i + 1) (by omega) (by omega)
      (rowStep dict i (cellsRow a a lo hi i) (fun _ => 0) best).1
      (rowStep dict i (cellsRow a a lo hi i) (fun _ => 0) best).2
      hA' ?_ ?_ hdiag' hblo' hbhi' hbound'
    · intro j
      have hD : Dpre a lo hi (i + 1) = Dv a lo hi i := rfl
      rw [hD]
      exact hB' j
    · intro j hj
      have : j = i := by omega
      subst this
      exact hC'

/-- The leftward extension of a diagonal state walks back to `lo`. -/
theorem extLoop_stepL_self (a : List Char) (lo : Nat) :
    ∀ (fuel m s : Nat), m - lo ≤ fuel → lo ≤ m →
      extLoop (cond1 a a lo lo) stepL fuel ⟨m, m, s⟩ = ⟨lo, lo, s + (m - lo)⟩ := by
  intro fuel
  induction fuel with
  | zero =>
    intro m s hf hm
    have hml : m = lo := by omega
    subst hml
    simp [extLoop]
  | succ fuel ih =>
    intro m s hf hm
    by_cases hlt : lo < m
    · have hc : cond1 a a lo lo ⟨m, m, s⟩ = true := by
        simp [cond1, isbjunk, hlt]
      rw [extLoop, if_pos hc]
      have hstep : stepL ⟨m, m, s⟩ = ⟨m - 1, m - 1, s + 1⟩ := rfl
      rw [hstep, ih (m - 1) (s + 1) (by omega) (by omega)]
      simp only [FlmBest.mk.injEq]
      exact ⟨trivial, trivial, by omega⟩
    · have hc : cond1 a a lo lo ⟨m, m, s⟩ = false := by
        simp [cond1, hlt]
      rw [extLoop, if_neg (by rw [hc]; exact Bool.false_ne_true)]
      have hml : m = lo := by omega
      subst hml
      simp only [FlmBest.mk.injEq]
      exact ⟨trivial, trivial, by omega⟩

/-- The rightward extension of a diagonal state at `lo` walks to `hi`. -/
theorem extLoop_stepR_self (a : List Char) (lo hi : Nat) :
    ∀ (fuel s : Nat), hi - (lo + s) ≤ fuel → lo + s ≤ hi →
      extLoop (cond2 a a hi hi) stepR fuel ⟨lo, lo, s⟩ = ⟨lo, lo, hi - lo⟩ := by
  intro fuel
  induction fuel with
  | zero =>
    intro s hf hs
    have hsh : s = hi - lo := by omega
    subst hsh
    simp [extLoop]
  | succ fuel ih =>
    intro s hf hs
    by_cases hlt : lo + s < hi
    · have hc : cond2 a a hi hi ⟨lo, lo, s⟩ = true := by
        simp [cond2, isbjunk, hlt]
      rw [extLoop, if_pos hc]
      have hstep : stepR ⟨lo, lo, s⟩ = ⟨lo, lo, s + 1⟩ := rfl
      rw [hstep, ih (s + 1) (by omega) (by omega)]
    · have hc : cond2 a a hi hi ⟨lo, lo, s⟩ = false := by
        simp [cond2, hlt]
      rw [extLoop, if_neg (by rw [hc]; exact Bool.false_ne_true)]
      have hsh : s = hi - lo := by omega
      rw [hsh]

/-- A loop whose guard never fires returns its input. -/
theorem extLoop_noop {cond : FlmBest → Bool} {next : FlmBest → FlmBest}
    (h : ∀ st, cond st = false) : ∀ (fuel : Nat) (st : FlmBest),
      extLoop cond next fuel st = st
  | 0, st => rfl
  | fuel + 1, st => by
    rw [extLoop, if_neg (by rw [h st]; exact Bool.false_ne_true)]

/-- The junk extension guards never fire: the junk set is empty. -/
theorem cond3_false (a b : List Char) (alo blo : Nat) :
    ∀ st, cond3 a b alo blo st = false := by
  intro st
  simp [cond3, isbjunk]

/-- The junk extension guards never fire: the junk set is empty. -/
theorem cond4_false (a b : List Char) (ahi bhi : Nat) :
    ∀ st, cond4 a b ahi bhi st = false := by
  intro st
  simp [cond4, isbjunk]

/-- On a self-comparison, `find_longest_match` returns the whole window: the
dynamic-programming best is diagonal, and the extension loops (whose guards on
a diagonal state always compare a character with itself) stretch it to the
full window. -/
theorem findLongestMatch_self (a : List Char) (lo hi : Nat)
    (hlo : lo ≤ hi) (hhi : hi ≤ a.length) :
    findLongestMatch a a lo hi lo hi = ⟨lo, lo, hi - lo⟩ := by
  have hDzero : ∀ j, j < lo → Dv a lo hi j = 0 := by
    intro j hj
    exact Dv_eq_zero a lo hi j (fun hV => by have := hV.1; omega)
  obtain ⟨hdiag, hblo, hbhi⟩ :=
    dictPassFrom_self_inv a lo hi hhi (hi - lo) lo (le_refl lo) (by omega)
      (fun _ => 0) ⟨lo, lo, 0⟩ (fun _ => Nat.zero_le _) (fun _ => Nat.zero_le _)
      (fun j hj => by rw [hDzero j (by omega)])
      rfl (le_refl lo) (by show lo + 0 ≤ hi; omega)
      (fun j hj => by rw [hDzero j hj])
  have key : ∀ (b0 : FlmBest), b0.besti = b0.bestj → lo ≤ b0.besti →
      b0.besti + b0.bestsize ≤ hi →
      extLoop (cond4 a a hi hi) stepR hi
        (extLoop (cond3 a a lo lo) stepL
          (extLoop (cond2 a a hi hi) stepR hi
            (extLoop (cond1 a a lo lo) stepL b0.besti b0)).besti
          (extLoop (cond2 a a hi hi) stepR hi
            (extLoop (cond1 a a lo lo) stepL b0.besti b0))) = ⟨lo, lo, hi - lo⟩ := by
    rintro ⟨bi, bj, bs⟩ hd hbl hbh
    simp only at hd hbl hbh
    subst hd
    have h1 : extLoop (cond1 a a lo lo) stepL bi ⟨bi, bi, bs⟩ =
        ⟨lo, lo, bs + (bi - lo)⟩ :=
      extLoop_stepL_self a lo bi bi bs (by omega) hbl
    have h2 : extLoop (cond2 a a hi hi) stepR hi ⟨lo, lo, bs + (bi - lo)⟩ =
        ⟨lo, lo, hi - lo⟩ :=
      extLoop_stepR_self a lo hi hi (bs + (bi - lo)) (by omega) (by omega)
    simp only [h1, h2]
    rw [extLoop_noop (cond3_false a a lo lo), extLoop_noop (cond4_false a a hi hi)]
  simp only [findLongestMatch]
  exact key _ hdiag hblo hbhi

/-- On a self-comparison, the matching blocks cover the whole window. -/
theorem matchSum_self (a : List Char) :
    ∀ (fuel lo hi : Nat), lo ≤ hi → hi ≤ a.length → hi - lo < fuel →
      matchSum a a fuel (lo, hi, lo, hi) = hi - lo := by
  intro fuel
  induction fuel with
  | zero =>
    intro lo hi _ _ h
    omega
  | succ fuel ih =>
    intro lo hi hlo hhi hfuel
    rw [matchSum, findLongestMatch_self a lo hi hlo hhi]
    by_cases hz : hi - lo = 0
    · rw [if_pos hz]
      omega
    · rw [if_neg hz]
      have h1 : matchSum a a fuel (lo, lo, lo, lo) = 0 := by
        have := ih lo lo (le_refl lo) (le_trans hlo hhi) (by omega)
        simpa using this
      have hadd : lo + (hi - lo) = hi := by omega
      rw [hadd]
      have h2 : matchSum a a fuel (hi, hi, hi, hi) = 0 := by
        have := ih hi hi (le_refl hi) hhi (by omega)
        simpa using this
      rw [h1, h2]
      simp

/-- The ratio of a non-empty text against itself is 1. -/
theorem sequenceMatcherRatio_self (x : List Char) (hx : x ≠ []) :
    sequenceMatcherRatio x x = 1 := by
  have hlen : x.length ≠ 0 := fun h => hx (List.length_eq_zero.mp h)
  unfold sequenceMatcherRatio
  rw [if_neg (by omega)]
  rw [matchSum_self x (x.length + x.length + 1) 0 x.length (Nat.zero_le _)
    (le_refl _) (by omega)]
  rw [Nat.sub_zero]
  have hq : ((x.length : ℚ)) ≠ 0 := by
    exact_mod_cast hlen
  field_simp
  ring

/-- Membership in a stripped list implies membership in the original. -/
theorem mem_of_mem_pyStrip {c : Char} {l : List Char} (h : c ∈ pyStrip l) : c ∈ l := by
  unfold pyStrip at h
  rw [List.mem_reverse] at h
  have h1 := (List.dropWhile_sublist isPySpace).mem h
  rw [List.mem_reverse] at h1
  exact (List.dropWhile_sublist isPySpace).mem h1

/-- Stripping never lengthens a list. -/
theorem pyStrip_length_le (l : List Char) : (pyStrip l).length ≤ l.length := by
  unfold pyStrip
  rw [List.length_reverse]
  calc ((l.dropWhile isPySpace).reverse.dropWhile isPySpace).length
      ≤ (l.dropWhile isPySpace).reverse.length :=
        (List.dropWhile_sublist isPySpace).length_le
    _ = (l.dropWhile isPySpace).length := List.length_reverse _
    _ ≤ l.length := (List.dropWhile_sublist isPySpace).length_le

/-- Characters inside the non-dot run are not periods. -/
theorem ne_dot_of_mem_take_nonDotRun :
    ∀ (xs : List Char) (l : Nat), l ≤ nonDotRunLen xs → ∀ c ∈ xs.take l, c ≠ '.'
  | [], l, _, c, hc => by simp at hc
  | x :: xs, l, hl, c, hc => by
    by_cases hx : x = '.'
    · have : nonDotRunLen (x :: xs) = 0 := by simp [nonDotRunLen, hx]
      rw [this] at hl
      interval_cases l
      simp at hc
    · have hrun : nonDotRunLen (x :: xs) = nonDotRunLen xs + 1 := by
        simp [nonDotRunLen, hx]
      match l with
      | 0 => simp at hc
      | l + 1 =>
        rw [List.take_succ_cons] at hc
        rcases List.mem_cons.mp hc with rfl | hc'
        · exact hx
        · exact ne_dot_of_mem_take_nonDotRun xs l (by omega) c hc'

/-- Characters matched case-insensitively against a dot-free keyword are not
periods. -/
theorem ne_dot_of_ciSegment :
    ∀ (seg kw : List Char), seg.length = kw.length →
      ((seg.zip kw).all fun pr => pr.1.toLower == pr.2.toLower) = true →
      (∀ k ∈ kw, k.toLower ≠ '.') → ∀ c ∈ seg, c ≠ '.'
  | [], _, _, _, _, c, hc => by simp at hc
  | s :: seg, [], hlen, _, _, c, hc => by simp at hlen
  | s :: seg, k :: kw, hlen, hall, hkw, c, hc => by
    rw [List.zip_cons_cons, List.all_cons, Bool.and_eq_true] at hall
    rcases List.mem_cons.mp hc with rfl | hc'
    · intro hcdot
      subst hcdot
      have h1 : Char.toLower '.' = Char.toLower k := beq_iff_eq.mp hall.1
      have h2 : Char.toLower '.' = '.' := by decide
      exact hkw k (List.mem_cons_self k kw) (by rw [← h1, h2])
    · exact ne_dot_of_ciSegment seg kw (by simpa using hlen) hall.2
        (fun x hx => hkw x (List.mem_cons_of_mem _ hx)) c hc'

/-- Structure of a successful anchored match: the length splits into a
dot-free prefix of at most 300 characters, the keyword occurrence, and a
dot-free suffix of at most 300 characters. -/
theorem matchLenAt_spec {text kw : List Char} {s len : Nat}
    (h : matchLenAt text kw s = some len) :
    ∃ l r, len = l + kw.length + r ∧ l ≤ 300 ∧ r ≤ 300 ∧
      l ≤ nonDotRunLen (text.drop s) ∧
      r ≤ nonDotRunLen (text.drop (s + l + kw.length)) ∧
      ciMatchesAt text kw (s + l) = true := by
  unfold matchLenAt at h
  obtain ⟨l, hmem, hl⟩ := List.exists_of_findSome?_eq_some h
  obtain ⟨d, _, hld⟩ := List.mem_map.mp hmem
  have hlle : l ≤ min 300 (nonDotRunLen (text.drop s)) := by omega
  by_cases hcond : (isBoundary text (s + l) && ciMatchesAt text kw (s + l) &&
      isBoundary text (s + l + kw.length)) = true
  · rw [if_pos hcond] at hl
    rw [Bool.and_eq_true, Bool.and_eq_true] at hcond
    have heq := Option.some.inj hl
    exact ⟨l, min 300 (nonDotRunLen (text.drop (s + l + kw.length))), heq.symm,
      le_trans hlle (Nat.min_le_left _ _), Nat.min_le_left _ _,
      le_trans hlle (Nat.min_le_right _ _), Nat.min_le_right _ _, hcond.1.2⟩
  · rw [if_neg hcond] at hl
    exact absurd hl (by simp)

/-- A successful search returns a successful anchored match. -/
theorem reSearch_spec {text kw : List Char} {s len : Nat}
    (h : reSearch text kw = some (s, len)) :
    matchLenAt text kw s = some len := by
  unfold reSearch at h
  obtain ⟨s', _, hs'⟩ := List.exists_of_findSome?_eq_some h
  rcases hm : matchLenAt text kw s' with _ | len'
  · rw [hm] at hs'; simp at hs'
  · rw [hm] at hs'
    simp only [Option.map_some'] at hs'
    have : s' = s ∧ len' = len := by
      constructor <;> [exact congrArg Prod.fst (Option.some.inj hs');
        exact congrArg Prod.snd (Option.some.inj hs')]
    rw [← this.1, ← this.2]
    exact hm

/-- The matched group contains no period: both windows stop before any `'.'`
and the keyword itself is dot-free. -/
theorem group_no_dot {text kw : List Char} {s len : Nat}
    (h : reSearch text kw = some (s, len))
    (hkw : ∀ k ∈ kw, k.toLower ≠ '.') :
    ∀ c ∈ (text.drop s).take len, c ≠ '.' := by
  obtain ⟨l, r, hlen, -, -, hlrun, hrrun, hci⟩ := matchLenAt_spec (reSearch_spec h)
  subst hlen
  intro c hc
  rw [show l + kw.length + r = l + (kw.length + r) by omega, List.take_add] at hc
  rcases List.mem_append.mp hc with hc1 | hc2
  · exact ne_dot_of_mem_take_nonDotRun _ l hlrun c hc1
  · rw [List.take_add, List.drop_drop] at hc2
    rcases List.mem_append.mp hc2 with hc3 | hc4
    · unfold ciMatchesAt at hci
      rw [Bool.and_eq_true] at hci
      have hseglen : ((text.drop (s + l)).take kw.length).length = kw.length :=
        of_decide_eq_true hci.1
      exact ne_dot_of_ciSegment _ kw hseglen hci.2 hkw c hc3
    · rw [List.drop_drop] at hc4
      exact ne_dot_of_mem_take_nonDotRun _ r hrrun c hc4

end LegalCore

/-- C6: for every input text — the empty string included — the clause map
lists every declared category exactly once, in declaration order, and every
entry with `found = false` has an empty excerpt. -/
theorem C6_clause_map_total (text : List Char) :
    ((LegalCore.detect_clauses_with_excerpts text).map Prod.fst =
      LegalCore.clauses.map Prod.fst) ∧
    (LegalCore.clauses.map Prod.fst).Nodup ∧
    ∀ p ∈ LegalCore.detect_clauses_with_excerpts text,
      p.2.found = false → p.2.excerpt = [] := by
  refine ⟨rfl, by decide, ?_⟩
  intro p hp hfound
  obtain ⟨q, hq, rfl⟩ := List.mem_map.mp hp
  revert hfound
  unfold LegalCore.detectClause
  rcases h : List.findSome? (fun k => LegalCore.reSearch text k) q.2 with _ | sl
  · intro; rfl
  · intro hfound; simp at hfound

/-- Witness for C6 at the empty text. -/
theorem C6_clause_map_total_witness :
    ((LegalCore.detect_clauses_with_excerpts []).map Prod.fst =
      LegalCore.clauses.map Prod.fst) ∧
    (LegalCore.clauses.map Prod.fst).Nodup ∧
    ∀ p ∈ LegalCore.detect_clauses_with_excerpts [],
      p.2.found = false → p.2.excerpt = [] :=
  C6_clause_map_total []

/-- C10: no excerpt produced by `detect_clauses_with_excerpts` contains a
period: each capture window `[^.]{0,300}` stops before the nearest period on
its side of the keyword, and the keywords themselves are dot-free. -/
theorem C10_excerpt_no_period (text : List Char)
    (p : String × LegalCore.ClauseResult)
    (hp : p ∈ LegalCore.detect_clauses_with_excerpts text) :
    '.' ∉ p.2.excerpt := by
  obtain ⟨q, hq, rfl⟩ := List.mem_map.mp hp
  show '.' ∉ (LegalCore.detectClause text q.2).excerpt
  unfold LegalCore.detectClause
  rcases h : List.findSome? (fun k => LegalCore.reSearch text k) q.2 with _ | sl
  · simp
  · obtain ⟨k, hk, hks⟩ := List.exists_of_findSome?_eq_some h
    intro hdot
    simp only at hdot
    have h1 := LegalCore.mem_of_mem_pyStrip hdot
    obtain ⟨d, hd, hrepl⟩ := List.mem_map.mp h1
    have hddot : d = '.' := by
      by_cases hnl : d = '\n'
      · rw [LegalCore.replNl, if_pos hnl] at hrepl
        exact absurd hrepl (by decide)
      · rw [LegalCore.replNl, if_neg hnl] at hrepl
        exact hrepl
    subst hddot
    have h2 := LegalCore.mem_of_mem_pyStrip hd
    have hkdotfree : ∀ c ∈ k, c.toLower ≠ '.' := by
      have hall : ∀ ks ∈ LegalCore.clauses, ∀ kw ∈ ks.2, ∀ c ∈ kw, c.toLower ≠ '.' := by decide
      exact hall q hq k hk
    exact LegalCore.group_no_dot hks hkdotfree '.' h2 rfl

set_option maxRecDepth 100000 in
/-- Witness for C10 at a small text whose `Payment` clause is found. -/
theorem C10_excerpt_no_period_witness :
    '.' ∉ ((LegalCore.detect_clauses_with_excerpts "payment due soon".toList).getD 2
      ("", ⟨false, []⟩)).2.excerpt :=
  C10_excerpt_no_period "payment due soon".toList _ (by decide)

/-- Every keyword of the clause table has length at most 21. -/
theorem clause_keyword_length_le :
    ∀ ks ∈ LegalCore.clauses, ∀ kw ∈ ks.2, kw.length ≤ 21 := by decide

/-- C7 amended: an excerpt may keep up to 300 characters on EACH side of the
matched keyword, so its length is bounded by 600 plus the keyword length —
at most 621 for this clause table — but not by 300. -/
theorem C7_excerpt_length_bound (text : List Char)
    (p : String × LegalCore.ClauseResult)
    (hp : p ∈ LegalCore.detect_clauses_with_excerpts text) :
    p.2.excerpt.length ≤ 621 := by
  obtain ⟨q, hq, rfl⟩ := List.mem_map.mp hp
  show (LegalCore.detectClause text q.2).excerpt.length ≤ 621
  unfold LegalCore.detectClause
  rcases h : List.findSome? (fun k => LegalCore.reSearch text k) q.2 with _ | sl
  · simp
  · obtain ⟨k, hk, hks⟩ := List.exists_of_findSome?_eq_some h
    obtain ⟨l, r, hlen, hl, hr, -, -, -⟩ :=
      LegalCore.matchLenAt_spec (LegalCore.reSearch_spec hks)
    have hkw : k.length ≤ 21 := clause_keyword_length_le q hq k hk
    simp only
    calc (LegalCore.pyStrip ((LegalCore.pyStrip
            ((text.drop sl.1).take sl.2)).map LegalCore.replNl)).length
        ≤ ((LegalCore.pyStrip ((text.drop sl.1).take sl.2)).map LegalCore.replNl).length :=
          LegalCore.pyStrip_length_le _
      _ = (LegalCore.pyStrip ((text.drop sl.1).take sl.2)).length := List.length_map _ _
      _ ≤ ((text.drop sl.1).take sl.2).length := LegalCore.pyStrip_length_le _
      _ ≤ sl.2 := List.length_take_le _ _
      _ ≤ 621 := by omega

set_option maxRecDepth 100000 in
/-- Witness for the amended C7 at a small text with a found clause. -/
theorem C7_excerpt_length_bound_witness :
    ((LegalCore.detect_clauses_with_excerpts "governing law applies".toList).getD 5
      ("", ⟨false, []⟩)).2.excerpt.length ≤ 621 :=
  C7_excerpt_length_bound "governing law applies".toList _ (by decide)

set_option maxRecDepth 400000 in
/-- C7 counterexample: on `longWindowText` the Confidentiality excerpt keeps
300 characters on each side of the keyword and is 612 characters long — far
above the claimed ~300-character bound. -/
theorem C7_excerpt_length_counterexample :
    300 < ((LegalCore.detect_clauses_with_excerpts longWindowText).headD
      ("", ⟨false, []⟩)).2.excerpt.length := by decide

/-- C8: the core extractors are total over every backend environment: a
missing `PyPDF2` backend or a reader exception (corrupt file) makes
`extract_text_from_pdf` return the empty string, and missing OCR backends or
a conversion exception make `run_ocr_on_pdf` return the empty string — no
exception reaches the caller. -/
theorem C8_extraction_degrades_to_empty :
    (∀ (env : LegalCore.PdfEnv) (path : String),
      env.pdfReaderAvailable = false ∨ (∃ e, env.readPdf path = .error e) →
      LegalCore.extract_text_from_pdf env path = []) ∧
    (∀ (env : LegalCore.OcrEnv) (path : String),
      env.convertAvailable = false ∨ env.tesseractAvailable = false ∨
        (∃ e, env.convert path = .error e) →
      LegalCore.run_ocr_on_pdf env path = []) := by
  constructor
  · rintro env path (hav | ⟨e, he⟩)
    · simp [LegalCore.extract_text_from_pdf, hav]
    · unfold LegalCore.extract_text_from_pdf
      by_cases hav : env.pdfReaderAvailable = false
      · rw [if_pos hav]
      · rw [if_neg hav, he]
  · rintro env path (hav | hav | ⟨e, he⟩)
    · simp [LegalCore.run_ocr_on_pdf, hav]
    · simp [LegalCore.run_ocr_on_pdf, hav]
    · unfold LegalCore.run_ocr_on_pdf
      by_cases hav : env.convertAvailable = false ∨ env.tesseractAvailable = false
      · rw [if_pos hav]
      · rw [if_neg hav, he]

/-- Evaluation of Python `round(x, 2)` when the scaled value rounds down. -/
theorem pyRound2_eq_of_floor (q : ℚ) (n : ℤ) (h1 : ⌊q * 100⌋ = n)
    (h2 : q * 100 - (n : ℚ) < 1/2) : LegalCore.pyRound2 q = (n : ℚ) / 100 := by
  unfold LegalCore.pyRound2 LegalCore.halfEvenInt
  rw [h1, if_pos h2]

set_option maxRecDepth 40000 in
/-- Matched total of the forward comparison: autojunk removes both popular
characters of the second argument from `b2j`, so only one element matches. -/
theorem matchSum_ce_fwd : LegalCore.matchSum ceShort ceLong 203 (0, 2, 0, 200) = 1 := by
  decide

set_option maxRecDepth 40000 in
/-- Matched total of the reverse comparison: the short second argument is not
autojunk-filtered, so the block `ab` of length two matches. -/
theorem matchSum_ce_rev : LegalCore.matchSum ceLong ceShort 203 (0, 200, 0, 2) = 2 := by
  decide

set_option maxRecDepth 40000 in
/-- Forward score of the counterexample pair: 0.99. -/
theorem compare_versions_ce_fwd :
    LegalCore.compare_versions ceShort ceLong = 99/100 := by
  have hratio : LegalCore.sequenceMatcherRatio ceShort ceLong = 1/101 := by
    unfold LegalCore.sequenceMatcherRatio
    rw [show ceShort.length = 2 from rfl, show ceLong.length = 200 from by decide,
      if_neg (by norm_num), show (2 + 200 + 1 : Nat) = 203 from rfl, matchSum_ce_fwd]
    norm_num
  unfold LegalCore.compare_versions
  rw [if_neg (by decide : ¬ (ceShort = [] ∨ ceLong = [])), hratio]
  rw [pyRound2_eq_of_floor (1/101 * 100) 99 ?_ ?_]
  · norm_num
  · rw [Int.floor_eq_iff]
    constructor <;> norm_num
  · rw [show ((99 : ℤ) : ℚ) = 99 from rfl]
    norm_num

set_option maxRecDepth 40000 in
/-- Reverse score of the counterexample pair: 1.98. -/
theorem compare_versions_ce_rev :
    LegalCore.compare_versions ceLong ceShort = 99/50 := by
  have hratio : LegalCore.sequenceMatcherRatio ceLong ceShort = 2/101 := by
    unfold LegalCore.sequenceMatcherRatio
    rw [show ceLong.length = 200 from by decide, show ceShort.length = 2 from rfl,
      if_neg (by norm_num), show (200 + 2 + 1 : Nat) = 203 from rfl, matchSum_ce_rev]
    norm_num
  unfold LegalCore.compare_versions
  rw [if_neg (by decide : ¬ (ceLong = [] ∨ ceShort = [])), hratio]
  rw [pyRound2_eq_of_floor (2/101 * 100) 198 ?_ ?_]
  · norm_num
  · rw [Int.floor_eq_iff]
    constructor <;> norm_num
  · rw [show ((198 : ℤ) : ℚ) = 198 from rfl]
    norm_num

/-- C5 counterexample: `compare_versions` is not symmetric.  With `ab` against
a 200-character string of popular characters the autojunk heuristic (applied
to the second argument only) suppresses matches in one direction but not the
other: the scores are 0.99 and 1.98. -/
theorem C5_symmetry_counterexample :
    LegalCore.compare_versions ceShort ceLong ≠
      LegalCore.compare_versions ceLong ceShort := by
  rw [compare_versions_ce_fwd, compare_versions_ce_rev]
  norm_num

/-- C5 amended: the comparison score is symmetric in the degenerate cases the
spec relies on — identical inputs, or an empty input on either side — but not
for arbitrary pairs, because the matcher's autojunk filtering depends on the
second argument only. -/
theorem C5_symmetry_degenerate (a b : List Char)
    (h : a = b ∨ a = [] ∨ b = []) :
    LegalCore.compare_versions a b = LegalCore.compare_versions b a := by
  rcases h with rfl | rfl | rfl
  · rfl
  · unfold LegalCore.compare_versions
    rw [if_pos (Or.inl rfl), if_pos (Or.inr rfl)]
  · unfold LegalCore.compare_versions
    rw [if_pos (Or.inr rfl), if_pos (Or.inl rfl)]

/-- Witness for the amended C5 at a pair of identical one-character texts. -/
theorem C5_symmetry_degenerate_witness :
    ((['x'] : List Char) = ['x'] ∨ (['x'] : List Char) = [] ∨ (['x'] : List Char) = []) ∧
    LegalCore.compare_versions ['x'] ['x'] = LegalCore.compare_versions ['x'] ['x'] :=
  ⟨Or.inl rfl, C5_symmetry_degenerate ['x'] ['x'] (Or.inl rfl)⟩

/-- C4: `compare_versions` is reflexively 100.00 on every non-empty text —
on a self-comparison every matching block is diagonal and the blocks cover
the whole text, so the ratio is exactly 1 — and returns 0.0 whenever either
input is the empty string (including both empty), by the explicit guard. -/
theorem C4_compare_versions_self_and_empty :
    (∀ x : List Char, x ≠ [] → LegalCore.compare_versions x x = 100) ∧
    (∀ x y : List Char, x = [] ∨ y = [] → LegalCore.compare_versions x y = 0) := by
  constructor
  · intro x hx
    unfold LegalCore.compare_versions
    rw [if_neg (by tauto), LegalCore.sequenceMatcherRatio_self x hx]
    rw [show (1 * 100 : ℚ) = 100 by norm_num]
    rw [pyRound2_eq_of_floor 100 10000 ?_ ?_]
    · norm_num
    · rw [show (100 * 100 : ℚ) = ((10000 : ℤ) : ℚ) by norm_num]
      exact Int.floor_intCast _
    · rw [show ((10000 : ℤ) : ℚ) = 10000 from rfl]
      norm_num
  · intro x y h
    unfold LegalCore.compare_versions
    rw [if_pos h]

/-- Witness for C4 at a one-character text and an empty first input. -/
theorem C4_compare_versions_self_and_empty_witness :
    ((['a'] : List Char) ≠ [] ∧ LegalCore.compare_versions ['a'] ['a'] = 100) ∧
    ((([] : List Char) = [] ∨ (['b'] : List Char) = []) ∧
      LegalCore.compare_versions [] ['b'] = 0) :=
  ⟨⟨by decide, C4_compare_versions_self_and_empty.1 ['a'] (by decide)⟩,
   ⟨Or.inl rfl, C4_compare_versions_self_and_empty.2 [] ['b'] (Or.inl rfl)⟩⟩

/-- Witness for C8: a corrupt PDF and a missing OCR backend both yield the
empty string. -/
theorem C8_extraction_degrades_to_empty_witness :
    (corruptPdfEnv.pdfReaderAvailable = false ∨
      (∃ e, corruptPdfEnv.readPdf "contract.pdf" = .error e)) ∧
    LegalCore.extract_text_from_pdf corruptPdfEnv "contract.pdf" = [] ∧
    (missingOcrEnv.convertAvailable = false ∨ missingOcrEnv.tesseractAvailable = false ∨
      (∃ e, missingOcrEnv.convert "contract.pdf" = .error e)) ∧
    LegalCore.run_ocr_on_pdf missingOcrEnv "contract.pdf" = [] :=
  ⟨Or.inr ⟨LegalCore.PdfErr.corrupt, rfl⟩,
   C8_extraction_degrades_to_empty.1 corruptPdfEnv "contract.pdf"
     (Or.inr ⟨LegalCore.PdfErr.corrupt, rfl⟩),
   Or.inl rfl,
   C8_extraction_degrades_to_empty.2 missingOcrEnv "contract.pdf" (Or.inl rfl)⟩

/-- C2 counterexample: a clause map with 4 of 9 clauses found is rated `High`
although its ratio 4/9 is not below 0.4 — the code's High threshold is 0.5,
not the claimed 0.4. -/
theorem C2_risk_thresholds_counterexample :
    (LegalCore.assess_risk riskMapNineFour).1 = "High" ∧
    ¬ LegalCore.riskRatio riskMapNineFour < 2/5 := by
  have hfc : LegalCore.foundCount riskMapNineFour = 4 := rfl
  have hlen : riskMapNineFour.length = 9 := rfl
  have hr : LegalCore.riskRatio riskMapNineFour = 4/9 := by
    rw [LegalCore.riskRatio, hfc, hlen]
    norm_num
  constructor
  · unfold LegalCore.assess_risk
    rw [if_neg (show ¬ riskMapNineFour = [] by decide), hr]
    rw [if_neg (by norm_num), if_neg (by rintro ⟨h5, -⟩; norm_num at h5)]
  · rw [hr]
    norm_num

/-- C2 amended: for every non-empty clause map the levels partition the ratio
domain at the code's actual thresholds: `Low ↔ ratio ≥ 0.8`,
`Medium ↔ 0.5 ≤ ratio < 0.8`, `High ↔ ratio < 0.5` — monotonic, with no gaps
and no overlaps. -/
theorem C2_risk_thresholds_partition (m : List (String × LegalCore.ClauseResult))
    (h : m ≠ []) :
    ((LegalCore.assess_risk m).1 = "Low" ↔ 4/5 ≤ LegalCore.riskRatio m) ∧
    ((LegalCore.assess_risk m).1 = "Medium" ↔
      1/2 ≤ LegalCore.riskRatio m ∧ LegalCore.riskRatio m < 4/5) ∧
    ((LegalCore.assess_risk m).1 = "High" ↔ LegalCore.riskRatio m < 1/2) := by
  unfold LegalCore.assess_risk
  rw [if_neg h]
  rcases le_or_lt (4/5 : ℚ) (LegalCore.riskRatio m) with h8 | h8
  · rw [if_pos h8]
    refine ⟨⟨fun _ => h8, fun _ => rfl⟩, ?_, ?_⟩
    · constructor
      · intro hL; exact absurd hL (by decide)
      · rintro ⟨-, hlt⟩; exact absurd h8 (not_le.mpr hlt)
    · constructor
      · intro hL; exact absurd hL (by decide)
      · intro hlt; exfalso; linarith
  · rw [if_neg (not_le.mpr h8)]
    rcases le_or_lt (1/2 : ℚ) (LegalCore.riskRatio m) with h5 | h5
    · rw [if_pos ⟨h5, h8⟩]
      refine ⟨?_, ⟨fun _ => ⟨h5, h8⟩, fun _ => rfl⟩, ?_⟩
      · constructor
        · intro hM; exact absurd hM (by decide)
        · intro hge; exact absurd h8 (not_lt.mpr hge)
      · constructor
        · intro hM; exact absurd hM (by decide)
        · intro hlt; exfalso; linarith
    · rw [if_neg (by rintro ⟨hge, -⟩; exact absurd h5 (not_lt.mpr hge))]
      refine ⟨?_, ?_, ⟨fun _ => h5, fun _ => rfl⟩⟩
      · constructor
        · intro hH; exact absurd hH (by decide)
        · intro hge; exfalso; linarith
      · constructor
        · intro hH; exact absurd hH (by decide)
        · rintro ⟨hge, -⟩; exact absurd h5 (not_lt.mpr hge)

/-- Witness for the amended C2 at a concrete two-entry clause map. -/
theorem C2_risk_thresholds_partition_witness :
    riskMapTwoOne ≠ [] ∧
    (((LegalCore.assess_risk riskMapTwoOne).1 = "Low" ↔
      4/5 ≤ LegalCore.riskRatio riskMapTwoOne) ∧
    ((LegalCore.assess_risk riskMapTwoOne).1 = "Medium" ↔
      1/2 ≤ LegalCore.riskRatio riskMapTwoOne ∧ LegalCore.riskRatio riskMapTwoOne < 4/5) ∧
    ((LegalCore.assess_risk riskMapTwoOne).1 = "High" ↔
      LegalCore.riskRatio riskMapTwoOne < 1/2)) :=
  ⟨by decide, C2_risk_thresholds_partition riskMapTwoOne (by decide)⟩

/-- C1: whenever the lower-cased input text contains any judicial-signal
keyword from the fixed list (`judgment`, `petitioner`, `respondent`,
`high court`, `supreme court`, ...), `detect_contract_type` returns
`Court Judgment / Order`; the override fires before any category scoring,
so contract keywords such as `employee`, `salary`, `termination` in the same
text cannot change the label. -/
theorem C1_judgment_override (text : List Char)
    (h : ∃ k ∈ LegalCore.judgment_signals,
      LegalCore.substrOf k (LegalCore.pyLower text) = true) :
    LegalCore.detect_contract_type text = "Court Judgment / Order" := by
  apply LegalCore.detect_eq_court_of_any
  obtain ⟨k, hk, hik⟩ := h
  exact List.any_eq_true.mpr ⟨k, hk, hik⟩

/-- Witness for C1 at a text containing both `petitioner` and the employment
keywords `employee`, `salary`, `termination`. -/
theorem C1_judgment_override_witness :
    (∃ k ∈ LegalCore.judgment_signals,
      LegalCore.substrOf k (LegalCore.pyLower "petitioner employee salary termination".toList) = true) ∧
    LegalCore.detect_contract_type "petitioner employee salary termination".toList =
      "Court Judgment / Order" :=
  ⟨⟨"petitioner".toList, by decide, by decide⟩,
   C1_judgment_override _ ⟨"petitioner".toList, by decide, by decide⟩⟩

/-- C9: the judicial override uses plain substring containment, so even the
bare substrings `order` or `court` occurring inside ordinary phrases
(`in order to`, `purchase order`) force the `Court Judgment / Order` label. -/
theorem C9_bare_substring_override (text : List Char)
    (h : LegalCore.substrOf "order".toList (LegalCore.pyLower text) = true ∨
      LegalCore.substrOf "court".toList (LegalCore.pyLower text) = true) :
    LegalCore.detect_contract_type text = "Court Judgment / Order" := by
  apply LegalCore.detect_eq_court_of_any
  rcases h with h | h
  · exact List.any_eq_true.mpr ⟨"order".toList, by decide, h⟩
  · exact List.any_eq_true.mpr ⟨"court".toList, by decide, h⟩

/-- Witness for C9 at the ordinary phrase `in order to proceed`. -/
theorem C9_bare_substring_override_witness :
    (LegalCore.substrOf "order".toList (LegalCore.pyLower "in order to proceed".toList) = true ∨
      LegalCore.substrOf "court".toList (LegalCore.pyLower "in order to proceed".toList) = true) ∧
    LegalCore.detect_contract_type "in order to proceed".toList = "Court Judgment / Order" :=
  ⟨Or.inl (by decide), C9_bare_substring_override _ (Or.inl (by decide))⟩

/-- C3 counterexample: `employee employer salary` is 24 characters long
(far below 200) yet scores 3 for `Employment Contract`, and the code checks
the score threshold before the short-text gate, so it returns
`Employment Contract`, not `Short Text / Unknown`. -/
theorem C3_short_text_counterexample :
    "employee employer salary".toList.length < 200 ∧
    LegalCore.detect_contract_type "employee employer salary".toList = "Employment Contract" := by
  constructor
  · decide
  · decide

/-- C3 amended: an input shorter than 200 characters is classified
`Short Text / Unknown` only when no judicial signal matches and the winning
keyword score is below the confidence threshold 3; a short text whose winning
score reaches 3 keeps the scored label. -/
theorem C3_short_text_gate (text : List Char)
    (hsig : LegalCore.judgment_signals.any
      (fun k => LegalCore.substrOf k (LegalCore.pyLower text)) = false)
    (hscore : (LegalCore.pyMax (LegalCore.categories.map
      fun p => (p.1, LegalCore.scoreOf (LegalCore.pyLower text) p.2))).2 < 3)
    (hlen : text.length < 200) :
    LegalCore.detect_contract_type text = "Short Text / Unknown" := by
  unfold LegalCore.detect_contract_type
  rw [hsig]
  have hlen' : (LegalCore.pyLower text).length = text.length := LegalCore.pyLower_length text
  have h2 : ¬ (3 ≤ (LegalCore.pyMax (LegalCore.categories.map
      fun p => (p.1, LegalCore.scoreOf (LegalCore.pyLower text) p.2))).2) := by omega
  have h3 : ¬ (0 < (LegalCore.pyMax (LegalCore.categories.map
      fun p => (p.1, LegalCore.scoreOf (LegalCore.pyLower text) p.2))).2 ∧
      300 < (LegalCore.pyLower text).length) := by
    rintro ⟨-, hbig⟩
    omega
  have h4 : (LegalCore.pyLower text).length < 200 := by omega
  simp [h2, h3, h4]

/-- Witness for the amended C3 at the short neutral text `hello world`. -/
theorem C3_short_text_gate_witness :
    (LegalCore.judgment_signals.any
      (fun k => LegalCore.substrOf k (LegalCore.pyLower "hello world".toList)) = false) ∧
    ((LegalCore.pyMax (LegalCore.categories.map
      fun p => (p.1, LegalCore.scoreOf (LegalCore.pyLower "hello world".toList) p.2))).2 < 3) ∧
    "hello world".toList.length < 200 ∧
    LegalCore.detect_contract_type "hello world".toList = "Short Text / Unknown" :=
  ⟨by decide, by decide, by decide,
   C3_short_text_gate _ (by decide) (by decide) (by decide)⟩

